import Mathlib

/-
Shallow embedding of the Program Instrumentation & Complexity Engine
(src/metrics.py): the multi-language cyclomatic-complexity calculator
(`CyclomaticComplexityCalculator`) and the energy aggregation of
`UniversalEnergyMonitor`.

Source texts are modelled as `List Char`.  The regex passes of
`remove_comments_and_strings` and the `re.findall` keyword counting of
`count_complexity_keywords` are embedded as structurally recursive scanners
that reproduce Python's left-to-right, non-overlapping match semantics of
the concrete patterns used by the source.  Word characters are modelled as
ASCII `[A-Za-z0-9_]` and case folding as ASCII lowercasing, matching
Python's `re.IGNORECASE` and word boundary `\b` on ASCII text.

Python's `ast.parse` is external library code; it is modelled as an oracle
parameter `parse : List Char → Option PyNode` supplied to the dispatcher,
returning `none` exactly when the source text does not parse (the source
catches that failure and returns 0).
-/

/-- The double-quote character, written by code point to keep quoting plain. -/
def dqChar : Char := Char.ofNat 34

/-- The single-quote character, written by code point to keep quoting plain. -/
def sqChar : Char := Char.ofNat 39

/-- The backtick character, written by code point to keep quoting plain. -/
def btChar : Char := Char.ofNat 96

/-- Does the list contain the character `c`?  Used to decide whether a quote
has a matching closing quote (regex `"[^"]*"` only matches when one exists). -/
def hasChar (c : Char) : List Char → Bool
  | [] => false
  | d :: rest => d = c || hasChar c rest

/-- Does the list contain the two-character substring `[a, b]` (adjacent)? -/
def hasSub2 (a b : Char) : List Char → Bool
  | [] => false
  | c :: rest => (c = a && rest.head? = some b) || hasSub2 a b rest

/-- Pass for `re.sub(r'//.*$', '', code, flags=re.MULTILINE)`: on each line,
drop everything from the first `//` to the end of the line (the newline is
kept, since `.` does not match it and `$` stops before it).  The Boolean is
the scanning mode: `true` while inside a line comment being dropped. -/
def goL : Bool → List Char → List Char
  | true, [] => []
  | true, '\n' :: rest => '\n' :: goL false rest
  | true, _ :: rest => goL true rest
  | false, [] => []
  | false, '/' :: '/' :: rest => goL true rest
  | false, c :: rest => c :: goL false rest

/-- Pass for `re.sub(r'#.*$', '', code, flags=re.MULTILINE)`: on each line,
drop everything from the first `#` to the end of the line. -/
def goH : Bool → List Char → List Char
  | true, [] => []
  | true, '\n' :: rest => '\n' :: goH false rest
  | true, _ :: rest => goH true rest
  | false, [] => []
  | false, '#' :: rest => goH true rest
  | false, c :: rest => c :: goH false rest

/-- Pass for `re.sub(r'/\*.*?\*/', '', code, flags=re.DOTALL)`: remove each
block comment from a `/*` to the nearest following `*/` (non-greedy), the
match spanning newlines.  A `/*` with no later `*/` is not a match: the
regex engine moves on one character (the closing `*/` must lie wholly after
the `/*`, so once no `*/` remains no later `/*` can match either, which the
scanner reproduces by rechecking at every opener). -/
def goB : Bool → List Char → List Char
  | true, [] => []
  | true, '*' :: '/' :: rest => goB false rest
  | true, _ :: rest => goB true rest
  | false, [] => []
  | false, '/' :: '*' :: rest =>
      if hasSub2 '*' '/' rest then goB true rest else '/' :: goB false ('*' :: rest)
  | false, c :: rest => c :: goB false rest

/-- Pass for `re.sub(r'"[^"]*"', '""', code)` and its single-quote/backtick
analogues, parametrised by the quote character `q`: each leftmost pair of
`q`s with no `q` between them is replaced by an empty pair `qq` (the
delimiters are kept, the content is dropped; the content may span newlines
since `[^q]` matches a newline).  A final `q` with no later `q` matches
nothing and the remainder is kept verbatim. -/
def goQ (q : Char) : Bool → List Char → List Char
  | true, [] => []
  | true, c :: rest => if c = q then q :: goQ q false rest else goQ q true rest
  | false, [] => []
  | false, c :: rest =>
      if c = q then (if hasChar q rest then q :: goQ q true rest else c :: rest)
      else c :: goQ q false rest

/-- `CyclomaticComplexityCalculator.remove_comments_and_strings`: the six
`re.sub` passes applied in source order — `//` line comments, `#` line
comments, `/* */` block comments, then double-quoted, single-quoted and
backtick-quoted literals. -/
def remove_comments_and_strings (code_content : List Char) : List Char :=
  goQ btChar false (goQ sqChar false (goQ dqChar false
    (goB false (goH false (goL false code_content)))))

/-- A word character for the regex `\b` boundary: ASCII `[A-Za-z0-9_]`. -/
def isWordChar (c : Char) : Bool := c.isAlpha || c.isDigit || c = '_'

/-- Does `s` start with the keyword `kw` (given lowercase), comparing the
text case-insensitively (ASCII lowercasing, as `re.IGNORECASE` does)? -/
def startsWithCI (kw s : List Char) : Bool :=
  match kw, s with
  | [], _ => true
  | _ :: _, [] => false
  | k :: ks, c :: cs => k = c.toLower && startsWithCI ks cs

/-- Word-boundary check on the left of a match: start of text or a
non-word character before the match position. -/
def boundaryBefore : Option Char → Bool
  | none => true
  | some c => !isWordChar c

/-- Word-boundary check on the right of a match: end of text or a non-word
character right after the keyword. -/
def boundaryAfter (kw s : List Char) : Bool :=
  match (s.drop kw.length).head? with
  | none => true
  | some c => !isWordChar c

/-- Scanner for `re.findall(r'\b<kw>\b', cleaned, re.IGNORECASE)`:
left-to-right, non-overlapping matches of the keyword between word
boundaries.  `prev` is the character just before the current position
(regex `\b` consults the actual text, not match bookkeeping) and `skip`
counts remaining characters of a match being stepped over. -/
def wordScanAux (kw : List Char) : Option Char → Nat → List Char → Nat
  | _, _, [] => 0
  | _, Nat.succ k, c :: rest => wordScanAux kw (some c) k rest
  | prev, 0, c :: rest =>
      if boundaryBefore prev && startsWithCI kw (c :: rest) && boundaryAfter kw (c :: rest) then
        1 + wordScanAux kw (some c) (kw.length - 1) rest
      else wordScanAux kw (some c) 0 rest

/-- Number of word-bounded, case-insensitive, non-overlapping occurrences of
the keyword `kw` in `s`. -/
def wordScan (kw s : List Char) : Nat := wordScanAux kw none 0 s

/-- Scanner for `re.findall(r'\&\&|\|\|', cleaned)`: the source uses this
single combined pattern for both of the keywords `&&` and `||`, so it
counts occurrences of either operator. -/
def apScan : List Char → Nat
  | '&' :: '&' :: rest => 1 + apScan rest
  | '|' :: '|' :: rest => 1 + apScan rest
  | _ :: rest => apScan rest
  | [] => 0

/-- Non-overlapping occurrences of `&&` alone. -/
def ampScan : List Char → Nat
  | '&' :: '&' :: rest => 1 + ampScan rest
  | _ :: rest => ampScan rest
  | [] => 0

/-- Non-overlapping occurrences of `||` alone. -/
def pipeScan : List Char → Nat
  | '|' :: '|' :: rest => 1 + pipeScan rest
  | _ :: rest => pipeScan rest
  | [] => 0

/-- Scanner for `re.findall(r'\?', cleaned)`: occurrences of `?`. -/
def qmScan : List Char → Nat
  | '?' :: rest => 1 + qmScan rest
  | _ :: rest => qmScan rest
  | [] => 0

/-- Scanner for `re.findall(r'=>', cleaned)`: non-overlapping occurrences
of `=>`. -/
def arrowScan : List Char → Nat
  | '=' :: '>' :: rest => 1 + arrowScan rest
  | _ :: rest => arrowScan rest
  | [] => 0

/-- Matches the per-keyword branch of
`CyclomaticComplexityCalculator.count_complexity_keywords`: keywords `&&`
and `||` both use the combined pattern, `?` and `=>` are matched literally,
every other keyword is matched word-bounded. -/
def keywordCount (cleaned kw : List Char) : Nat :=
  if kw = "&&".data ∨ kw = "||".data then apScan cleaned
  else if kw = "?".data then qmScan cleaned
  else if kw = "=>".data then arrowScan cleaned
  else wordScan kw cleaned

/-- `CyclomaticComplexityCalculator.count_complexity_keywords`: strip
comments and strings, start from base complexity 1, add the match count of
every keyword, and clamp at 1 from below. -/
def count_complexity_keywords (code_content : List Char) (keywords : List (List Char)) : Nat :=
  let cleaned := remove_comments_and_strings code_content
  let complexity := 1 + (keywords.map (keywordCount cleaned)).sum
  max complexity 1

/-- Keyword rule set of `analyze_java`. -/
def javaKeywords : List (List Char) :=
  ["if", "else if", "while", "for", "switch", "case", "catch",
   "throw", "throws", "&&", "||", "?", "do"].map String.data

/-- Keyword rule set of `analyze_javascript`. -/
def javascriptKeywords : List (List Char) :=
  ["if", "else if", "while", "for", "switch", "case", "catch",
   "throw", "&&", "||", "?", "do", "function", "=>"].map String.data

/-- Keyword rule set of `analyze_c_cpp`. -/
def cCppKeywords : List (List Char) :=
  ["if", "else if", "while", "for", "switch", "case", "catch",
   "throw", "&&", "||", "?", "do"].map String.data

/-- Keyword rule set of `analyze_go`. -/
def goKeywords : List (List Char) :=
  ["if", "else if", "while", "for", "switch", "case", "defer",
   "&&", "||", "func", "go", "select"].map String.data

/-- Keyword rule set of `analyze_csharp`. -/
def csharpKeywords : List (List Char) :=
  ["if", "else if", "while", "for", "foreach", "switch", "case",
   "catch", "throw", "&&", "||", "?", "do"].map String.data

/-- Keyword rule set of `analyze_php`. -/
def phpKeywords : List (List Char) :=
  ["if", "elseif", "while", "for", "foreach", "switch", "case",
   "catch", "throw", "&&", "||", "?", "do", "function"].map String.data

/-- Keyword rule set of `analyze_ruby`. -/
def rubyKeywords : List (List Char) :=
  ["if", "elsif", "while", "for", "case", "when", "rescue",
   "raise", "&&", "||", "?", "def", "unless", "until"].map String.data

/-- Keyword rule set of `analyze_generic`. -/
def genericKeywords : List (List Char) :=
  ["if", "else", "while", "for", "switch", "case", "catch",
   "throw", "&&", "||", "?", "function", "def"].map String.data

/-- `CyclomaticComplexityCalculator.analyze_java`. -/
def analyze_java (code_content : List Char) : Nat :=
  count_complexity_keywords code_content javaKeywords

/-- `CyclomaticComplexityCalculator.analyze_javascript`. -/
def analyze_javascript (code_content : List Char) : Nat :=
  count_complexity_keywords code_content javascriptKeywords

/-- `CyclomaticComplexityCalculator.analyze_c_cpp`. -/
def analyze_c_cpp (code_content : List Char) : Nat :=
  count_complexity_keywords code_content cCppKeywords

/-- `CyclomaticComplexityCalculator.analyze_go`. -/
def analyze_go (code_content : List Char) : Nat :=
  count_complexity_keywords code_content goKeywords

/-- `CyclomaticComplexityCalculator.analyze_csharp`. -/
def analyze_csharp (code_content : List Char) : Nat :=
  count_complexity_keywords code_content csharpKeywords

/-- `CyclomaticComplexityCalculator.analyze_php`. -/
def analyze_php (code_content : List Char) : Nat :=
  count_complexity_keywords code_content phpKeywords

/-- `CyclomaticComplexityCalculator.analyze_ruby`. -/
def analyze_ruby (code_content : List Char) : Nat :=
  count_complexity_keywords code_content rubyKeywords

/-- `CyclomaticComplexityCalculator.analyze_generic`. -/
def analyze_generic (code_content : List Char) : Nat :=
  count_complexity_keywords code_content genericKeywords

/-- Kinds of Python AST nodes distinguished by
`CyclomaticComplexityCalculator.visit_python_node`.  `boolOp` records the
operand count `len(node.values)`; `compExpr` covers the four comprehension
forms (`ListComp`, `DictComp`, `SetComp`, `GeneratorExp`) and records
`len(generator.ifs)` for each of its generators; `asyncFunctionDef` is kept
as its own kind to record that `isinstance(node, ast.FunctionDef)` does not
match it (Python's `AsyncFunctionDef` is not a subclass of `FunctionDef`),
so the source adds nothing for it; every node shape the source does not
test for is `other`. -/
inductive PyKind where
  | functionDef
  | asyncFunctionDef
  | ifStmt
  | whileStmt
  | forStmt
  | asyncForStmt
  | tryStmt
  | exceptHandler
  | boolOp (numValues : Nat)
  | ifExp
  | compExpr (genIfCounts : List Nat)
  | lambdaExpr
  | other
  deriving DecidableEq

mutual
/-- A Python AST node: its kind plus the children yielded by
`ast.iter_child_nodes`, in order. -/
inductive PyNode where
  | mk (kind : PyKind) (children : PyForest)
  deriving DecidableEq
/-- A list of sibling Python AST nodes (a mutual inductive so that the
traversal is structurally recursive). -/
inductive PyForest where
  | nil
  | cons (head : PyNode) (tail : PyForest)
  deriving DecidableEq
end

/-- Amount added to `self.complexity` by the `isinstance` chain of
`visit_python_node` for one node.  For a `BoolOp` the source adds
`len(node.values) - 1` (parsed sources always have at least 2 operands, so
the Nat truncation at 0 operands is never exercised); for a comprehension
it adds `len(generator.ifs)` for each generator whose filter list is
non-empty. -/
def nodeContribution : PyKind → Nat
  | .functionDef => 1
  | .ifStmt => 1
  | .whileStmt => 1
  | .forStmt => 1
  | .asyncForStmt => 1
  | .exceptHandler => 1
  | .tryStmt => 1
  | .boolOp numValues => numValues - 1
  | .ifExp => 1
  | .compExpr genIfCounts =>
      genIfCounts.foldl (fun acc numIfs => if numIfs = 0 then acc else acc + numIfs) 0
  | .lambdaExpr => 1
  | .asyncFunctionDef => 0
  | .other => 0

mutual
/-- `CyclomaticComplexityCalculator.visit_python_node`: add this node's
contribution to the running `self.complexity`, then visit every child. -/
def visit_python_node (complexity : Nat) : PyNode → Nat
  | .mk kind children => visit_forest (complexity + nodeContribution kind) children
/-- Visit a list of sibling nodes in order, threading `self.complexity`. -/
def visit_forest (complexity : Nat) : PyForest → Nat
  | .nil => complexity
  | .cons node rest => visit_forest (visit_python_node complexity node) rest
end

/-- `CyclomaticComplexityCalculator.analyze_python`: on a parse failure
(`ast.parse` raised, before `self.complexity` was touched) return 0;
otherwise set `self.complexity` to the base value 1, walk the tree, and
return the result. -/
def analyze_python (tree : Option PyNode) : Nat :=
  match tree with
  | none => 0
  | some t => visit_python_node 1 t

/-- Stateful version of `analyze_python`, threading the mutable
`self.complexity` field explicitly: returns (result, new field value).
On a parse failure the field is untouched; otherwise it is overwritten
with 1 before the walk and holds the result afterwards. -/
def analyze_python_state (self_complexity : Nat) (tree : Option PyNode) : Nat × Nat :=
  match tree with
  | none => (0, self_complexity)
  | some t =>
      let c := visit_python_node 1 t
      (c, c)

/-- ASCII lowercasing of a text, as Python `str.lower` does on ASCII. -/
def strLower (s : List Char) : List Char := s.map Char.toLower

/-- Helper for `os.path.splitext`: scans the reversed basename; `acc`
collects the characters already passed (i.e. those after the candidate
dot, in correct order).  At the first dot met (= the last dot of the
basename) the extension `'.' :: acc` is produced, but only if some
character before that dot in the basename is not itself a dot (leading
dots, as in `.bashrc` or `..py`, never start an extension). -/
def extScan (acc : List Char) : List Char → List Char
  | [] => []
  | c :: rest =>
      if c = '.' then (if rest.any (fun d => decide (d ≠ '.')) then '.' :: acc else [])
      else extScan (c :: acc) rest

/-- The extension part of `os.path.splitext(path)[1]` for a POSIX path:
computed on the basename (text after the last `/`). -/
def splitext_ext (path : List Char) : List Char :=
  extScan [] ((path.reverse).takeWhile (fun c => decide (c ≠ '/')))

/-- `CyclomaticComplexityCalculator.calculate_complexity`: lowercase the
path, take its extension, and dispatch — `.py` to the AST analysis (via
the parse oracle), the listed extensions to their keyword rule sets, and
everything else to the generic rule set. -/
def calculate_complexity (parse : List Char → Option PyNode)
    (file_path code_content : List Char) : Nat :=
  let ext := splitext_ext (strLower file_path)
  if ext = ".py".data then analyze_python (parse code_content)
  else if ext = ".java".data then analyze_java code_content
  else if ext = ".js".data ∨ ext = ".jsx".data ∨ ext = ".ts".data ∨ ext = ".tsx".data then
    analyze_javascript code_content
  else if ext = ".c".data ∨ ext = ".cpp".data ∨ ext = ".cc".data ∨ ext = ".cxx".data ∨
      ext = ".h".data ∨ ext = ".hpp".data then
    analyze_c_cpp code_content
  else if ext = ".go".data then analyze_go code_content
  else if ext = ".cs".data then analyze_csharp code_content
  else if ext = ".php".data then analyze_php code_content
  else if ext = ".rb".data then analyze_ruby code_content
  else analyze_generic code_content

/-- Stateful version of `calculate_complexity`, threading the calculator
instance's mutable `self.complexity` field: only the `.py` branch touches
it (inside `analyze_python`); every heuristic branch uses local variables
only and leaves the field unchanged. -/
def calculate_complexity_state (self_complexity : Nat) (parse : List Char → Option PyNode)
    (file_path code_content : List Char) : Nat × Nat :=
  let ext := splitext_ext (strLower file_path)
  if ext = ".py".data then analyze_python_state self_complexity (parse code_content)
  else if ext = ".java".data then (analyze_java code_content, self_complexity)
  else if ext = ".js".data ∨ ext = ".jsx".data ∨ ext = ".ts".data ∨ ext = ".tsx".data then
    (analyze_javascript code_content, self_complexity)
  else if ext = ".c".data ∨ ext = ".cpp".data ∨ ext = ".cc".data ∨ ext = ".cxx".data ∨
      ext = ".h".data ∨ ext = ".hpp".data then
    (analyze_c_cpp code_content, self_complexity)
  else if ext = ".go".data then (analyze_go code_content, self_complexity)
  else if ext = ".cs".data then (analyze_csharp code_content, self_complexity)
  else if ext = ".php".data then (analyze_php code_content, self_complexity)
  else if ext = ".rb".data then (analyze_ruby code_content, self_complexity)
  else (analyze_generic code_content, self_complexity)

/-- One CPU/memory sample of the monitored process, with the rationals
standing in for Python floats. -/
structure Sample where
  cpu_percent : ℚ
  memory_mb : ℚ

/-- Rounding to 6 decimal digits, modelling Python's `round(x, 6)` (the
model rounds halves up where Python rounds halves to even; both sides of
every statement below use this same operation). -/
def round6 (x : ℚ) : ℚ := (round (x * 1000000) : ℚ) / 1000000

/-- Average of the `cpu_percent` fields of a sample list. -/
def avgCpu (samples : List Sample) : ℚ :=
  (samples.map Sample.cpu_percent).sum / samples.length

/-- Average of the `memory_mb` fields of a sample list. -/
def avgMem (samples : List Sample) : ℚ :=
  (samples.map Sample.memory_mb).sum / samples.length

/-- `UniversalEnergyMonitor.calculate_energy_consumption`: 0.0 when no
samples were collected; otherwise the base 5 W plus the CPU term
`(avg_cpu / 100) * 30` plus the memory term `(avg_memory / 1000) * 2`,
times the duration, divided by 3600, rounded to 6 decimal digits. -/
def calculate_energy_consumption (samples : List Sample) (duration : ℚ) : ℚ :=
  match samples with
  | [] => 0
  | _ :: _ =>
    let avg_cpu := avgCpu samples
    let avg_memory := avgMem samples
    let base_power : ℚ := 5
    let cpu_power := (avg_cpu / 100) * 30
    let memory_power := (avg_memory / 1000) * 2
    let total_power := base_power + cpu_power + memory_power
    round6 ((total_power * duration) / 3600)

/-- Per-node score as claim C1 words it: 1 for each function or lambda
definition, 1 for each if/while/for construct (including asynchronous loop
forms), 1 for each exception-handling block and each handler clause,
(N - 1) for each short-circuit boolean expression with N operands, 1 for
each inline conditional expression, and 1 for each filter clause inside a
comprehension or generator.  An async function definition is not one of
the listed constructs (the spec names asynchronous forms only for loops),
so it scores 0, as does every other node shape. -/
def specNodeScore : PyKind → Nat
  | .functionDef => 1
  | .lambdaExpr => 1
  | .ifStmt => 1
  | .whileStmt => 1
  | .forStmt => 1
  | .asyncForStmt => 1
  | .tryStmt => 1
  | .exceptHandler => 1
  | .boolOp numValues => numValues - 1
  | .ifExp => 1
  | .compExpr genIfCounts => genIfCounts.sum
  | .asyncFunctionDef => 0
  | .other => 0

mutual
/-- Total spec score of a tree: the node's own score plus that of all
descendants (the claim's "full traversal of the syntax tree"). -/
def specWeight : PyNode → Nat
  | .mk kind children => specNodeScore kind + specWeightForest children
/-- Total spec score of a forest of sibling subtrees. -/
def specWeightForest : PyForest → Nat
  | .nil => 0
  | .cons node rest => specWeight node + specWeightForest rest
end

/-- Per-keyword occurrence count as claim C2 words it: the number of
case-insensitive whole-word occurrences of that keyword, except that the
operators `&&`, `||`, `?` and `=>` are matched as literal symbol
occurrences — each operator keyword counting occurrences of that keyword
itself. -/
def specKeywordCount (cleaned kw : List Char) : Nat :=
  if kw = "&&".data then ampScan cleaned
  else if kw = "||".data then pipeScan cleaned
  else if kw = "?".data then qmScan cleaned
  else if kw = "=>".data then arrowScan cleaned
  else wordScan kw cleaned

/-- Heuristic complexity as claim C2 words it: 1 (base) plus the sum over
each keyword in the rule set of that keyword's own occurrence count in the
comment-and-string-stripped text, never below 1. -/
def specKeywordComplexity (code_content : List Char) (keywords : List (List Char)) : Nat :=
  let cleaned := remove_comments_and_strings code_content
  max (1 + (keywords.map (specKeywordCount cleaned)).sum) 1

/-- Energy estimate as claim C3 words it: for a non-empty sample list,
((5 + (average cpu_percent / 100) * 30 + (average memory_mb / 1000) * 2)
* duration) / 3600 rounded to 6 decimal digits; exactly 0 for an empty
sample list. -/
def energySpec (samples : List Sample) (duration : ℚ) : ℚ :=
  match samples with
  | [] => 0
  | _ :: _ =>
      round6 (((5 + (avgCpu samples / 100) * 30 + (avgMem samples / 1000) * 2) * duration) / 3600)

/-- Does the text contain a block-comment match, i.e. a `/*` with a
(disjoint) `*/` somewhere after it?  This is exactly the condition under
which the pattern `/\*.*?\*/` matches somewhere in the text. -/
def hasOC : List Char → Bool
  | '/' :: '*' :: r => hasSub2 '*' '/' r || hasOC ('*' :: r)
  | _ :: r => hasOC r
  | [] => false

/-- Quote normal form for the quote character `q`: all occurrences of `q`
come as immediately adjacent pairs, except possibly one final `q` with no
`q` after it.  This is the shape `goQ q false` leaves behind, and on texts
of this shape the pass is the identity. -/
def qok (q : Char) : List Char → Bool
  | [] => true
  | c :: rest =>
      if c = q then
        match rest with
        | [] => true
        | d :: r2 => if d = q then qok q r2 else !hasChar q rest
      else qok q rest

/-- A chunk of text that interacts with none of the stripping passes: it
contains no comment-introducing `/` or `#` and none of the three quote
characters. -/
def literalSafe (s : List Char) : Prop :=
  '/' ∉ s ∧ '#' ∉ s ∧ dqChar ∉ s ∧ sqChar ∉ s ∧ btChar ∉ s

instance : DecidablePred literalSafe := fun s => by
  unfold literalSafe
  infer_instance

theorem hasSub2_cons (a b c : Char) (r : List Char) :
    hasSub2 a b (c :: r) = ((c = a && r.head? = some b) || hasSub2 a b r) := rfl

theorem hasSub2_tail {a b c : Char} {r : List Char} (h : hasSub2 a b (c :: r) = false) :
    hasSub2 a b r = false := by
  rw [hasSub2_cons] at h
  simp at h
  exact h.2

theorem hasSub2_mem {a b : Char} {s : List Char} (h : hasSub2 a b s = true) : a ∈ s := by
  induction s with
  | nil => simp [hasSub2] at h
  | cons c r ih =>
      rw [hasSub2_cons] at h
      simp at h
      rcases h with ⟨h1, _⟩ | h2
      · simp [h1]
      · exact List.mem_cons_of_mem c (ih h2)

theorem hasChar_iff_mem (c : Char) (s : List Char) : hasChar c s = true ↔ c ∈ s := by
  induction s with
  | nil => simp [hasChar]
  | cons d r ih =>
      simp only [hasChar, Bool.or_eq_true, decide_eq_true_eq, ih, List.mem_cons]
      constructor
      · rintro (h | h)
        · exact Or.inl h.symm
        · exact Or.inr h
      · rintro (h | h)
        · exact Or.inl h.symm
        · exact Or.inr h

theorem goL_sublist (m : Bool) (s : List Char) : (goL m s).Sublist s := by
  induction m, s using goL.induct <;> simp_all [goL]

theorem goH_sublist (m : Bool) (s : List Char) : (goH m s).Sublist s := by
  induction m, s using goH.induct <;> simp_all [goH]

theorem goB_sublist (m : Bool) (s : List Char) : (goB m s).Sublist s := by
  induction m, s using goB.induct <;> simp_all [goB]

theorem goQ_true_cons_q (q : Char) (rest : List Char) :
    goQ q true (q :: rest) = q :: goQ q false rest := by
  simp [goQ]

theorem goQ_true_cons_ne (q c : Char) (rest : List Char) (h : ¬c = q) :
    goQ q true (c :: rest) = goQ q true rest := by
  simp [goQ, h]

theorem goQ_false_cons_q_pos (q : Char) (rest : List Char) (h : hasChar q rest = true) :
    goQ q false (q :: rest) = q :: goQ q true rest := by
  simp [goQ, h]

theorem goQ_false_cons_q_neg (q : Char) (rest : List Char) (h : ¬hasChar q rest = true) :
    goQ q false (q :: rest) = q :: rest := by
  simp [goQ, h]

theorem goQ_false_cons_ne (q c : Char) (rest : List Char) (h : ¬c = q) :
    goQ q false (c :: rest) = c :: goQ q false rest := by
  simp [goQ, h]

theorem goQ_sublist (q : Char) (m : Bool) (s : List Char) : (goQ q m s).Sublist s := by
  refine goQ.induct q (fun m s => (goQ q m s).Sublist s) ?_ ?_ ?_ ?_ ?_ ?_ ?_ m s
  · simp [goQ]
  · intro rest ih
    rw [goQ_true_cons_q]
    exact ih.cons₂ q
  · intro c rest h ih
    rw [goQ_true_cons_ne q c rest h]
    exact ih.cons c
  · simp [goQ]
  · intro rest h ih
    rw [goQ_false_cons_q_pos q rest h]
    exact ih.cons₂ q
  · intro rest h
    rw [goQ_false_cons_q_neg q rest h]
  · intro c rest h ih
    rw [goQ_false_cons_ne q c rest h]
    exact ih.cons₂ c

theorem goL_true_nl (rest : List Char) : goL true ('\n' :: rest) = '\n' :: goL false rest := by
  simp [goL]

theorem goL_true_ne (c : Char) (rest : List Char) (h : ¬c = '\n') :
    goL true (c :: rest) = goL true rest := by
  rw [goL.eq_def]
  split <;> simp_all

theorem goL_false_ss (rest : List Char) : goL false ('/' :: '/' :: rest) = goL true rest := by
  simp [goL]

theorem goL_false_other (c : Char) (rest : List Char)
    (h : ∀ r1, c = '/' → rest = '/' :: r1 → False) :
    goL false (c :: rest) = c :: goL false rest := by
  rw [goL.eq_def]
  split <;> simp_all

theorem goL_true_headne (r : List Char) : ((goL true r).head? = some '/') → False := by
  induction r with
  | nil => simp [goL]
  | cons c rest ih =>
      by_cases h : c = '\n'
      · subst h
        rw [goL_true_nl]
        simp
      · rw [goL_true_ne c rest h]
        exact ih

theorem goL_false_head (s : List Char) :
    ((goL false s).head? = some '/') → s.head? = some '/' := by
  rcases s with _ | ⟨c, rest⟩
  · simp [goL]
  · rcases rest with _ | ⟨d, r⟩
    · rw [goL_false_other c [] (by intro r1 _ hr; simp at hr)]
      simp
    · by_cases hc : c = '/'
      · subst hc
        by_cases hd : d = '/'
        · subst hd
          rw [goL_false_ss]
          intro hh
          exact absurd hh (goL_true_headne r)
        · simp
      · rw [goL_false_other c (d :: r) (by intro r1 h1 _; exact hc h1)]
        simp

theorem goL_no_ss (m : Bool) (s : List Char) : hasSub2 '/' '/' (goL m s) = false := by
  induction m, s using goL.induct with
  | case1 => rfl
  | case2 rest ih =>
      rw [goL_true_nl, hasSub2_cons]
      simp [ih]
  | case3 c rest h ih => rw [goL_true_ne c rest h]; exact ih
  | case4 => rfl
  | case5 rest ih => rw [goL_false_ss]; exact ih
  | case6 c rest h ih =>
      rw [goL_false_other c rest h, hasSub2_cons]
      simp [ih]
      intro hc hh
      have := goL_false_head rest hh
      rcases rest with _ | ⟨d, r⟩
      · simp at this
      · simp at this
        exact h r hc (by rw [this])

theorem goL_identity (s : List Char) (h : hasSub2 '/' '/' s = false) : goL false s = s := by
  induction s with
  | nil => rfl
  | cons c rest ih =>
      rw [hasSub2_cons] at h
      simp at h
      obtain ⟨h1, h2⟩ := h
      rw [goL_false_other c rest
        (by intro r1 hc hr; rw [hr] at h1; exact absurd (h1 hc) (by simp))]
      rw [ih h2]

theorem goH_true_nl (rest : List Char) : goH true ('\n' :: rest) = '\n' :: goH false rest := by
  simp [goH]

theorem goH_true_ne (c : Char) (rest : List Char) (h : ¬c = '\n') :
    goH true (c :: rest) = goH true rest := by
  rw [goH.eq_def]
  split <;> simp_all

theorem goH_false_hash (rest : List Char) : goH false ('#' :: rest) = goH true rest := by
  simp [goH]

theorem goH_false_other (c : Char) (rest : List Char) (h : ¬c = '#') :
    goH false (c :: rest) = c :: goH false rest := by
  rw [goH.eq_def]
  split <;> simp_all

theorem goH_true_head (r : List Char) (x : Char) :
    ((goH true r).head? = some x) → x = '\n' := by
  induction r with
  | nil => simp [goH]
  | cons c rest ih =>
      by_cases h : c = '\n'
      · subst h
        rw [goH_true_nl]
        simp
        intro hh
        exact hh.symm
      · rw [goH_true_ne c rest h]
        exact ih

theorem goH_false_head (s : List Char) (x : Char) :
    ((goH false s).head? = some x) → x = '\n' ∨ s.head? = some x := by
  rcases s with _ | ⟨c, rest⟩
  · simp [goH]
  · by_cases hc : c = '#'
    · subst hc
      rw [goH_false_hash]
      intro hh
      exact Or.inl (goH_true_head rest x hh)
    · rw [goH_false_other c rest hc]
      simp
      intro hh
      exact Or.inr hh

theorem goH_no_hash (m : Bool) (s : List Char) : '#' ∉ goH m s := by
  induction m, s using goH.induct with
  | case1 => simp [goH]
  | case2 rest ih =>
      rw [goH_true_nl]
      simp [ih]
  | case3 c rest h ih => rw [goH_true_ne c rest h]; exact ih
  | case4 => simp [goH]
  | case5 rest ih => rw [goH_false_hash]; exact ih
  | case6 c rest h ih =>
      rw [goH_false_other c rest h]
      simp [ih]
      exact fun hx => h hx.symm

theorem goH_identity (s : List Char) (h : '#' ∉ s) : goH false s = s := by
  induction s with
  | nil => rfl
  | cons c rest ih =>
      simp at h
      obtain ⟨h1, h2⟩ := h
      rw [goH_false_other c rest (fun hc => h1 hc.symm)]
      rw [ih h2]

theorem goH_pat (a b : Char) (hb : ¬b = '\n') (m : Bool) (s : List Char)
    (h : hasSub2 a b s = false) : hasSub2 a b (goH m s) = false := by
  induction m, s using goH.induct with
  | case1 => rfl
  | case2 rest ih =>
      rw [goH_true_nl, hasSub2_cons]
      have h2 := hasSub2_tail h
      simp [ih h2]
      intro hn hh
      have := goH_false_head rest b hh
      rcases this with hbn | hhd
      · exact hb hbn
      · rw [hasSub2_cons] at h
        simp at h
        rcases rest with _ | ⟨d, r⟩
        · simp at hhd
        · simp at hhd
          subst hhd
          exact absurd (h.1 (by rw [hn])) (by simp)
  | case3 c rest h3 ih => rw [goH_true_ne c rest h3]; exact ih (hasSub2_tail h)
  | case4 => rfl
  | case5 rest ih => rw [goH_false_hash]; exact ih (hasSub2_tail h)
  | case6 c rest h6 ih =>
      rw [goH_false_other c rest h6, hasSub2_cons]
      simp [ih (hasSub2_tail h)]
      intro hc hh
      have := goH_false_head rest b hh
      rcases this with hbn | hhd
      · exact hb hbn
      · rw [hasSub2_cons] at h
        simp at h
        rcases rest with _ | ⟨d, r⟩
        · simp at hhd
        · simp at hhd
          subst hhd
          exact absurd (h.1 (by rw [hc])) (by simp)

theorem goB_true_close (rest : List Char) : goB true ('*' :: '/' :: rest) = goB false rest := by
  simp [goB]

theorem goB_true_other (c : Char) (rest : List Char)
    (h : ∀ r1, c = '*' → rest = '/' :: r1 → False) :
    goB true (c :: rest) = goB true rest := by
  rw [goB.eq_def]
  split <;> simp_all

theorem goB_false_open_pos (rest : List Char) (h : hasSub2 '*' '/' rest = true) :
    goB false ('/' :: '*' :: rest) = goB true rest := by
  simp [goB, h]

theorem goB_false_open_neg (rest : List Char) (h : hasSub2 '*' '/' rest = false) :
    goB false ('/' :: '*' :: rest) = '/' :: goB false ('*' :: rest) := by
  simp [goB, h]

theorem goB_false_other (c : Char) (rest : List Char)
    (h : ∀ r1, c = '/' → rest = '*' :: r1 → False) :
    goB false (c :: rest) = c :: goB false rest := by
  rw [goB.eq_def]
  split <;> simp_all

theorem hasOC_cons (c : Char) (r : List Char) :
    hasOC (c :: r) =
      ((c = '/' && r.head? = some '*' && hasSub2 '*' '/' r.tail) || hasOC r) := by
  rcases r with _ | ⟨d, r2⟩
  · simp [hasOC]
  · by_cases hc : c = '/'
    · by_cases hd : d = '*'
      · subst hc
        subst hd
        simp [hasOC]
      · subst hc
        have e : hasOC ('/' :: d :: r2) = hasOC (d :: r2) := by
          rw [hasOC.eq_def]
          split <;> simp_all
        rw [e]
        simp [hd]
    · have e : hasOC (c :: d :: r2) = hasOC (d :: r2) := by
        rw [hasOC.eq_def]
        split <;> simp_all
      rw [e]
      simp [hc]

theorem hasOC_tail {c : Char} {r : List Char} (h : hasOC (c :: r) = false) : hasOC r = false := by
  rw [hasOC_cons] at h
  simp at h
  exact h.2

theorem no_close_no_hasOC (s : List Char) (h : hasSub2 '*' '/' s = false) : hasOC s = false := by
  induction s with
  | nil => rfl
  | cons c r ih =>
      have hr := hasSub2_tail h
      rw [hasOC_cons]
      simp [ih hr]
      intro hc hh
      rcases r with _ | ⟨d, r2⟩
      · simp at hh
      · simp at hh
        subst hh
        exact hasSub2_tail hr

theorem goB_no_close_identity (s : List Char) (h : hasSub2 '*' '/' s = false) :
    goB false s = s := by
  induction s with
  | nil => rfl
  | cons c rest ih =>
      have h2 : hasSub2 '*' '/' rest = false := hasSub2_tail h
      by_cases hopen : c = '/' ∧ rest.head? = some '*'
      · obtain ⟨hc, hhd⟩ := hopen
        subst hc
        rcases rest with _ | ⟨d, r⟩
        · simp at hhd
        · simp at hhd
          subst hhd
          have h3 : hasSub2 '*' '/' r = false := hasSub2_tail h2
          rw [goB_false_open_neg r h3, ih h2]
      · have hcond : ∀ r1, c = '/' → rest = '*' :: r1 → False := by
          intro r1 hc hr
          exact hopen ⟨hc, by rw [hr]; rfl⟩
        rw [goB_false_other c rest hcond, ih h2]

theorem goB_identity (s : List Char) (h : hasOC s = false) : goB false s = s := by
  induction s with
  | nil => rfl
  | cons c rest ih =>
      rw [hasOC_cons] at h
      simp at h
      obtain ⟨h1, h2⟩ := h
      by_cases hopen : c = '/' ∧ rest.head? = some '*'
      · obtain ⟨hc, hhd⟩ := hopen
        subst hc
        rcases rest with _ | ⟨d, r⟩
        · simp at hhd
        · simp at hhd
          subst hhd
          have h3 : hasSub2 '*' '/' r = false := by
            simpa using h1 rfl rfl
          rw [goB_false_open_neg r h3, ih h2]
      · have hcond : ∀ r1, c = '/' → rest = '*' :: r1 → False := by
          intro r1 hc hr
          exact hopen ⟨hc, by rw [hr]; rfl⟩
        rw [goB_false_other c rest hcond, ih h2]

theorem goB_star_emit (rest : List Char) : goB false ('*' :: rest) = '*' :: goB false rest := by
  apply goB_false_other
  intro r1 hc
  exact absurd hc (by decide)

theorem goB_head (m : Bool) (s : List Char) (h : hasSub2 '/' '/' s = false) :
    (goB m s).head? = some '/' → (m = false ∧ s.head? = some '/') := by
  induction m, s using goB.induct with
  | case1 => simp [goB]
  | case2 rest ih =>
      rw [goB_true_close]
      intro hh
      have h3 : hasSub2 '/' '/' rest = false := hasSub2_tail (hasSub2_tail h)
      have := (ih h3 hh).2
      rcases rest with _ | ⟨d, r⟩
      · simp at this
      · simp at this
        subst this
        rw [hasSub2_cons] at h
        simp at h
        rw [hasSub2_cons] at h
        simp at h
  | case3 c rest hc ih =>
      rw [goB_true_other c rest hc]
      intro hh
      exact absurd (ih (hasSub2_tail h) hh).1 (by simp)
  | case4 => simp [goB]
  | case5 rest hcl ih => exact fun _ => ⟨rfl, rfl⟩
  | case6 rest hcl ih => exact fun _ => ⟨rfl, rfl⟩
  | case7 c rest hc ih =>
      rw [goB_false_other c rest hc]
      simp

theorem goB_no_ss (m : Bool) (s : List Char) (h : hasSub2 '/' '/' s = false) :
    hasSub2 '/' '/' (goB m s) = false := by
  induction m, s using goB.induct with
  | case1 => rfl
  | case2 rest ih => rw [goB_true_close]; exact ih (hasSub2_tail (hasSub2_tail h))
  | case3 c rest hc ih => rw [goB_true_other c rest hc]; exact ih (hasSub2_tail h)
  | case4 => rfl
  | case5 rest hcl ih =>
      rw [goB_false_open_pos rest hcl]
      exact ih (hasSub2_tail (hasSub2_tail h))
  | case6 rest hcl ih =>
      have h2 : hasSub2 '/' '/' ('*' :: rest) = false := hasSub2_tail h
      rw [goB_false_open_neg rest (by simpa using hcl), goB_star_emit, hasSub2_cons, hasSub2_cons]
      simp
      exact hasSub2_tail (ih h2)
  | case7 c rest hc ih =>
      have h2 : hasSub2 '/' '/' rest = false := hasSub2_tail h
      rw [goB_false_other c rest hc, hasSub2_cons]
      simp [ih h2]
      intro hc2 hh
      have := (goB_head false rest h2 hh).2
      rw [hasSub2_cons] at h
      simp at h
      exact absurd this (by simpa using h.1 hc2)

theorem goB_no_hasOC (m : Bool) (s : List Char) (h : hasSub2 '/' '/' s = false) :
    hasOC (goB m s) = false := by
  induction m, s using goB.induct with
  | case1 => rfl
  | case2 rest ih => rw [goB_true_close]; exact ih (hasSub2_tail (hasSub2_tail h))
  | case3 c rest hc ih => rw [goB_true_other c rest hc]; exact ih (hasSub2_tail h)
  | case4 => rfl
  | case5 rest hcl ih =>
      rw [goB_false_open_pos rest hcl]
      exact ih (hasSub2_tail (hasSub2_tail h))
  | case6 rest hcl ih =>
      have hns : hasSub2 '*' '/' rest = false := by simpa using hcl
      rw [goB_false_open_neg rest hns, goB_star_emit, goB_no_close_identity rest hns]
      rw [hasOC_cons]
      simp
      constructor
      · exact hns
      · rw [hasOC_cons]
        simp
        exact no_close_no_hasOC rest hns
  | case7 c rest hc ih =>
      have h2 : hasSub2 '/' '/' rest = false := hasSub2_tail h
      rw [goB_false_other c rest hc, hasOC_cons]
      simp [ih h2]
      intro hc2 hh
      rcases rest with _ | ⟨d, r⟩
      · simp [goB] at hh
      · by_cases hd : d = '/'
        · subst hd
          rw [hasSub2_cons] at h
          simp at h
          exact absurd hc2 h.1
        · by_cases hd2 : d = '*'
          · subst hd2
            exact absurd rfl (hc r hc2)
          · rw [goB_false_other d r (by intro r1 hdd _; exact hd hdd)] at hh
            simp at hh
            exact absurd hh (by simpa using hd2)

theorem goQ_head (q : Char) (s : List Char) : (goQ q false s).head? = s.head? := by
  rcases s with _ | ⟨c, rest⟩
  · rfl
  · by_cases hc : c = q
    · rw [hc]
      by_cases hr : hasChar q rest = true
      · rw [goQ_false_cons_q_pos q rest hr]
        rfl
      · rw [goQ_false_cons_q_neg q rest hr]
    · rw [goQ_false_cons_ne q c rest hc]
      rfl

theorem goQ_pat (q a b : Char) (ha : ¬a = q) (m : Bool) (s : List Char)
    (h : hasSub2 a b s = false) : hasSub2 a b (goQ q m s) = false := by
  revert h
  refine goQ.induct q (fun m s => hasSub2 a b s = false → hasSub2 a b (goQ q m s) = false)
    ?_ ?_ ?_ ?_ ?_ ?_ ?_ m s
  · intro _
    rfl
  · intro rest ih h
    rw [goQ_true_cons_q, hasSub2_cons]
    simp [ih (hasSub2_tail h), ha]
    intro hq
    exact absurd hq.symm ha
  · intro c rest hc ih h
    rw [goQ_true_cons_ne q c rest hc]
    exact ih (hasSub2_tail h)
  · intro _
    rfl
  · intro rest hr ih h
    rw [goQ_false_cons_q_pos q rest hr, hasSub2_cons]
    simp [ih (hasSub2_tail h)]
    intro hq
    exact absurd hq.symm ha
  · intro rest hr h
    rw [goQ_false_cons_q_neg q rest hr]
    exact h
  · intro c rest hc ih h
    rw [goQ_false_cons_ne q c rest hc, hasSub2_cons]
    simp [ih (hasSub2_tail h)]
    intro hca hh
    rw [goQ_head q rest] at hh
    rw [hasSub2_cons] at h
    simp at h
    exact absurd hh (by simpa using h.1 hca)

theorem goQ_no_hasOC (q : Char) (hq1 : ¬q = '/') (hq2 : ¬q = '*') (m : Bool) (s : List Char)
    (h : hasOC s = false) : hasOC (goQ q m s) = false := by
  revert h
  refine goQ.induct q (fun m s => hasOC s = false → hasOC (goQ q m s) = false)
    ?_ ?_ ?_ ?_ ?_ ?_ ?_ m s
  · intro _
    rfl
  · intro rest ih h
    rw [goQ_true_cons_q, hasOC_cons]
    simp [ih (hasOC_tail h), hq1]
  · intro c rest hc ih h
    rw [goQ_true_cons_ne q c rest hc]
    exact ih (hasOC_tail h)
  · intro _
    rfl
  · intro rest hr ih h
    rw [goQ_false_cons_q_pos q rest hr, hasOC_cons]
    simp [ih (hasOC_tail h), hq1]
  · intro rest hr h
    rw [goQ_false_cons_q_neg q rest hr]
    exact h
  · intro c rest hc ih h
    rw [goQ_false_cons_ne q c rest hc, hasOC_cons]
    simp [ih (hasOC_tail h)]
    intro hca hh
    rw [goQ_head q rest] at hh
    rcases rest with _ | ⟨d, r⟩
    · simp at hh
    · simp at hh
      subst hh
      rw [goQ_false_cons_ne q '*' r (by simpa using fun hx => hq2 hx.symm)]
      simp
      rw [hasOC_cons] at h
      simp [hca] at h
      exact goQ_pat q '*' '/' (fun hx => hq2 hx.symm) false r h.1

theorem qok_cons_ne (q c : Char) (s : List Char) (h : ¬c = q) : qok q (c :: s) = qok q s := by
  rw [qok.eq_def]
  simp [h]

theorem qok_cons_cons_q (q : Char) (s : List Char) : qok q (q :: q :: s) = qok q s := by
  rw [qok.eq_def]
  simp

theorem qok_tail_of_cons_ne (q c : Char) (s : List Char) (hc : ¬c = q)
    (h : qok q (c :: s) = true) : qok q s = true := by
  rwa [qok_cons_ne q c s hc] at h

theorem qok_of_nochar (q : Char) (s : List Char) (h : hasChar q s = false) : qok q s = true := by
  induction s with
  | nil => rfl
  | cons c rest ih =>
      rw [hasChar] at h
      simp at h
      rw [qok_cons_ne q c rest h.1]
      exact ih (by simp [h.2])

theorem qok_cons_q_nochar (q : Char) (rest : List Char) (h : hasChar q rest = false) :
    qok q (q :: rest) = true := by
  rcases rest with _ | ⟨d, r⟩
  · rw [qok.eq_def]
    simp
  · have h' := h
    rw [hasChar] at h'
    simp at h'
    rw [qok.eq_def]
    simp [h'.1, h]

theorem goQ_qok (q : Char) (m : Bool) (s : List Char) :
    qok q (cond m (q :: goQ q true s) (goQ q false s)) = true := by
  refine goQ.induct q (fun m s => qok q (cond m (q :: goQ q true s) (goQ q false s)) = true)
    ?_ ?_ ?_ ?_ ?_ ?_ ?_ m s
  · show qok q (q :: goQ q true []) = true
    rw [show goQ q true [] = [] from rfl, qok.eq_def]
    simp
  · intro rest ih
    show qok q (q :: goQ q true (q :: rest)) = true
    rw [goQ_true_cons_q, qok_cons_cons_q]
    exact ih
  · intro c rest hc ih
    show qok q (q :: goQ q true (c :: rest)) = true
    rw [goQ_true_cons_ne q c rest hc]
    exact ih
  · rfl
  · intro rest hr ih
    show qok q (goQ q false (q :: rest)) = true
    rw [goQ_false_cons_q_pos q rest hr]
    exact ih
  · intro rest hr
    show qok q (goQ q false (q :: rest)) = true
    rw [goQ_false_cons_q_neg q rest hr]
    exact qok_cons_q_nochar q rest (by simpa using hr)
  · intro c rest hc ih
    show qok q (goQ q false (c :: rest)) = true
    rw [goQ_false_cons_ne q c rest hc, qok_cons_ne q c _ hc]
    exact ih

theorem goQ_identity (q : Char) (s : List Char) (h : qok q s = true) : goQ q false s = s := by
  revert h
  refine qok.induct q (fun s => qok q s = true → goQ q false s = s) ?_ ?_ ?_ ?_ ?_ s
  · intro _
    rfl
  · intro _
    rw [goQ_false_cons_q_neg q [] (by simp [hasChar])]
  · intro rest ih h
    rw [qok_cons_cons_q] at h
    rw [goQ_false_cons_q_pos q (q :: rest) (by simp [hasChar]), goQ_true_cons_q, ih h]
  · intro d rest hd h
    have hch : hasChar q (d :: rest) = false := by
      rw [qok.eq_def] at h
      simp [hd] at h
      simpa using h
    rw [goQ_false_cons_q_neg q (d :: rest) (by simp [hch])]
  · intro d rest hd ih h
    rw [qok_cons_ne q d rest hd] at h
    rw [goQ_false_cons_ne q d rest hd, ih h]

theorem qok_no_mem (q : Char) (s : List Char) (h : q ∉ s) : qok q s = true := by
  apply qok_of_nochar
  rw [← Bool.not_eq_true, hasChar_iff_mem]
  exact h

theorem goQ_pres_aux (q qp : Char) (hne : ¬q = qp) :
    ∀ (n : Nat) (s : List Char), s.length ≤ n →
      (qok q s = true → qok q (goQ qp false s) = true) ∧
      (qok q s = true → qok q (qp :: goQ qp true s) = true) := by
  intro n
  induction n with
  | zero =>
      intro s hs
      have hnil : s = [] := List.eq_nil_of_length_eq_zero (Nat.le_zero.mp hs)
      subst hnil
      refine ⟨fun _ => rfl, fun _ => ?_⟩
      rw [show goQ qp true [] = [] from rfl, qok_cons_ne q qp [] (fun hx => hne hx.symm)]
      rfl
  | succ n ih =>
      intro s hs
      rcases s with _ | ⟨c, rest⟩
      · refine ⟨fun _ => rfl, fun _ => ?_⟩
        rw [show goQ qp true [] = [] from rfl, qok_cons_ne q qp [] (fun hx => hne hx.symm)]
        rfl
      · have hrest : rest.length ≤ n := by
          simp at hs
          omega
        constructor
        · intro h
          by_cases hc : c = qp
          · subst hc
            have hq : qok q rest = true :=
              qok_tail_of_cons_ne q c rest (fun hx => hne hx.symm) h
            by_cases hch : hasChar c rest = true
            · rw [goQ_false_cons_q_pos c rest hch]
              exact (ih rest hrest).2 hq
            · rw [goQ_false_cons_q_neg c rest hch]
              exact h
          · by_cases hcq : c = q
            · subst hcq
              rw [goQ_false_cons_ne qp c rest hc]
              rcases rest with _ | ⟨d, r2⟩
              · rw [show goQ qp false [] = [] from rfl, qok.eq_def]
                simp
              · have hr2 : r2.length ≤ n := by
                  simp at hrest
                  omega
                by_cases hdq : d = c
                · subst hdq
                  rw [qok_cons_cons_q] at h
                  rw [goQ_false_cons_ne qp d r2 hc, qok_cons_cons_q]
                  exact (ih r2 hr2).1 h
                · have hch : hasChar c (d :: r2) = false := by
                    rw [qok.eq_def] at h
                    simp [hdq] at h
                    simpa using h
                  apply qok_cons_q_nochar
                  rw [← Bool.not_eq_true, hasChar_iff_mem]
                  intro hm
                  have := (goQ_sublist qp false (d :: r2)).subset hm
                  rw [← hasChar_iff_mem, hch] at this
                  exact absurd this (by simp)
            · rw [goQ_false_cons_ne qp c rest hc, qok_cons_ne q c _ hcq]
              exact (ih rest hrest).1 (qok_tail_of_cons_ne q c rest hcq h)
        · intro h
          rw [qok_cons_ne q qp _ (fun hx => hne hx.symm)]
          by_cases hc : c = qp
          · subst hc
            rw [goQ_true_cons_q, qok_cons_ne q c _ (fun hx => hne hx.symm)]
            exact (ih rest hrest).1 (qok_tail_of_cons_ne q c rest (fun hx => hne hx.symm) h)
          · by_cases hcq : c = q
            · subst hcq
              rw [goQ_true_cons_ne qp c rest hc]
              rcases rest with _ | ⟨d, r2⟩
              · rw [show goQ qp true [] = [] from rfl]
                rfl
              · have hr2 : r2.length ≤ n := by
                  simp at hrest
                  omega
                by_cases hdq : d = c
                · subst hdq
                  rw [qok_cons_cons_q] at h
                  rw [goQ_true_cons_ne qp d r2 hc]
                  have h2 := (ih r2 hr2).2 h
                  rwa [qok_cons_ne d qp _ (fun hx => hne hx.symm)] at h2
                · have hch : hasChar c (d :: r2) = false := by
                    rw [qok.eq_def] at h
                    simp [hdq] at h
                    simpa using h
                  apply qok_no_mem
                  intro hm
                  have := (goQ_sublist qp true (d :: r2)).subset hm
                  rw [← hasChar_iff_mem, hch] at this
                  exact absurd this (by simp)
            · rw [goQ_true_cons_ne qp c rest hc]
              have h2 := (ih rest hrest).2 (qok_tail_of_cons_ne q c rest hcq h)
              rwa [qok_cons_ne q qp _ (fun hx => hne hx.symm)] at h2

theorem goQ_pres (q qp : Char) (hne : ¬q = qp) (s : List Char) (h : qok q s = true) :
    qok q (goQ qp false s) = true :=
  (goQ_pres_aux q qp hne s.length s le_rfl).1 h

theorem strip_output_ok (s : List Char) :
    hasSub2 '/' '/' (remove_comments_and_strings s) = false ∧
    '#' ∉ remove_comments_and_strings s ∧
    hasOC (remove_comments_and_strings s) = false ∧
    qok dqChar (remove_comments_and_strings s) = true ∧
    qok sqChar (remove_comments_and_strings s) = true ∧
    qok btChar (remove_comments_and_strings s) = true := by
  unfold remove_comments_and_strings
  have hA1 : hasSub2 '/' '/' (goL false s) = false := goL_no_ss false s
  have hA2 : hasSub2 '/' '/' (goH false (goL false s)) = false :=
    goH_pat '/' '/' (by decide) false _ hA1
  have hA3 : '#' ∉ goH false (goL false s) := goH_no_hash false _
  have hA4 : hasSub2 '/' '/' (goB false (goH false (goL false s))) = false := goB_no_ss false _ hA2
  have hA5 : '#' ∉ goB false (goH false (goL false s)) :=
    fun hm => hA3 ((goB_sublist false _).subset hm)
  have hA6 : hasOC (goB false (goH false (goL false s))) = false := goB_no_hasOC false _ hA2
  have hB1 : hasSub2 '/' '/' (goQ dqChar false (goB false (goH false (goL false s)))) = false :=
    goQ_pat dqChar '/' '/' (by decide) false _ hA4
  have hB2 : '#' ∉ goQ dqChar false (goB false (goH false (goL false s))) :=
    fun hm => hA5 ((goQ_sublist dqChar false _).subset hm)
  have hB3 : hasOC (goQ dqChar false (goB false (goH false (goL false s)))) = false :=
    goQ_no_hasOC dqChar (by decide) (by decide) false _ hA6
  have hB4 : qok dqChar (goQ dqChar false (goB false (goH false (goL false s)))) = true := by
    simpa using goQ_qok dqChar false (goB false (goH false (goL false s)))
  have hC1 : hasSub2 '/' '/'
      (goQ sqChar false (goQ dqChar false (goB false (goH false (goL false s))))) = false :=
    goQ_pat sqChar '/' '/' (by decide) false _ hB1
  have hC2 : '#' ∉ goQ sqChar false (goQ dqChar false (goB false (goH false (goL false s)))) :=
    fun hm => hB2 ((goQ_sublist sqChar false _).subset hm)
  have hC3 : hasOC
      (goQ sqChar false (goQ dqChar false (goB false (goH false (goL false s))))) = false :=
    goQ_no_hasOC sqChar (by decide) (by decide) false _ hB3
  have hC4 : qok dqChar
      (goQ sqChar false (goQ dqChar false (goB false (goH false (goL false s))))) = true :=
    goQ_pres dqChar sqChar (by decide) _ hB4
  have hC5 : qok sqChar
      (goQ sqChar false (goQ dqChar false (goB false (goH false (goL false s))))) = true := by
    simpa using goQ_qok sqChar false (goQ dqChar false (goB false (goH false (goL false s))))
  have hD6 : qok btChar (goQ btChar false
      (goQ sqChar false (goQ dqChar false (goB false (goH false (goL false s)))))) = true := by
    simpa using goQ_qok btChar false
      (goQ sqChar false (goQ dqChar false (goB false (goH false (goL false s)))))
  exact ⟨goQ_pat btChar '/' '/' (by decide) false _ hC1,
    fun hm => hC2 ((goQ_sublist btChar false _).subset hm),
    goQ_no_hasOC btChar (by decide) (by decide) false _ hC3,
    goQ_pres dqChar btChar (by decide) _ hC4,
    goQ_pres sqChar btChar (by decide) _ hC5,
    hD6⟩

/-- C6: `remove_comments_and_strings` is idempotent — applying the six
stripping passes a second time changes nothing, because the first
application leaves no `//`, no `#`, no closed `/* */` pair, and all three
quote characters in adjacent-pair normal form. -/
theorem claim_C6_strip_idempotent :
    ∀ (code_content : List Char),
      remove_comments_and_strings (remove_comments_and_strings code_content) =
        remove_comments_and_strings code_content := by
  intro s
  obtain ⟨h1, h2, h3, h4, h5, h6⟩ := strip_output_ok s
  generalize hR : remove_comments_and_strings s = R at h1 h2 h3 h4 h5 h6 ⊢
  rw [remove_comments_and_strings.eq_def]
  rw [goL_identity R h1, goH_identity R h2, goB_identity R h3]
  rw [goQ_identity dqChar R h4, goQ_identity sqChar R h5, goQ_identity btChar R h6]

theorem hasOC_mem {s : List Char} (h : hasOC s = true) : '/' ∈ s := by
  induction s using hasOC.induct with
  | case1 r ih => simp
  | case2 c r hc ih =>
      rw [hasOC_cons] at h
      simp at h
      rcases h with ⟨h1, _⟩ | h2
      · simp [h1]
      · exact List.mem_cons_of_mem c (ih h2)
  | case3 => simp [hasOC] at h

theorem no_slash_no_ss {s : List Char} (h : '/' ∉ s) : hasSub2 '/' '/' s = false := by
  rw [← Bool.not_eq_true]
  intro hc
  exact h (hasSub2_mem hc)

theorem no_slash_no_hasOC {s : List Char} (h : '/' ∉ s) : hasOC s = false := by
  rw [← Bool.not_eq_true]
  intro hc
  exact h (hasOC_mem hc)

theorem goQ_append_nochar (q : Char) (A X : List Char) (h : q ∉ A) :
    goQ q false (A ++ X) = A ++ goQ q false X := by
  induction A with
  | nil => rfl
  | cons a A2 ih =>
      simp at h
      rw [List.cons_append, goQ_false_cons_ne q a (A2 ++ X) (fun hx => h.1 hx.symm)]
      rw [ih h.2, List.cons_append]

theorem goQ_true_skip (q : Char) (L R : List Char) (h : q ∉ L) :
    goQ q true (L ++ q :: R) = q :: goQ q false R := by
  induction L with
  | nil => rw [List.nil_append, goQ_true_cons_q]
  | cons a L2 ih =>
      simp at h
      rw [List.cons_append, goQ_true_cons_ne q a (L2 ++ q :: R) (fun hx => h.1 hx.symm)]
      exact ih h.2

theorem goQ_nochar_identity (q : Char) (s : List Char) (h : q ∉ s) : goQ q false s = s :=
  goQ_identity q s (qok_no_mem q s h)

theorem strip_literal (A L B : List Char) (hA : literalSafe A) (hL : literalSafe L)
    (hB : literalSafe B) :
    remove_comments_and_strings (A ++ dqChar :: (L ++ dqChar :: B)) =
      A ++ dqChar :: dqChar :: B := by
  obtain ⟨hA1, hA2, hA3, hA4, hA5⟩ := hA
  obtain ⟨hL1, hL2, hL3, hL4, hL5⟩ := hL
  obtain ⟨hB1, hB2, hB3, hB4, hB5⟩ := hB
  have hslash : '/' ∉ A ++ dqChar :: (L ++ dqChar :: B) := by
    simp [hA1, hL1, hB1]
    decide
  have hhash : '#' ∉ A ++ dqChar :: (L ++ dqChar :: B) := by
    simp [hA2, hL2, hB2]
    decide
  unfold remove_comments_and_strings
  rw [goL_identity _ (no_slash_no_ss hslash), goH_identity _ hhash,
    goB_identity _ (no_slash_no_hasOC hslash)]
  rw [goQ_append_nochar dqChar A (dqChar :: (L ++ dqChar :: B)) hA3]
  rw [goQ_false_cons_q_pos dqChar (L ++ dqChar :: B)
    (by rw [hasChar_iff_mem]; simp)]
  rw [goQ_true_skip dqChar L B hL3]
  rw [goQ_nochar_identity dqChar B hB3]
  have hsq : sqChar ∉ A ++ dqChar :: dqChar :: B := by
    simp [hA4, hB4]
    decide
  have hbt : btChar ∉ A ++ dqChar :: dqChar :: B := by
    simp [hA5, hB5]
    decide
  rw [goQ_nochar_identity sqChar _ hsq, goQ_nochar_identity btChar _ hbt]

/-- C5 counterexample: inserting the Java string literal `"\" if"` (an
escaped quote followed by the word if) between `y = ` and `x;` raises the
heuristic count from 1 to 2: the single-pass regex pairs the opening quote
with the escaped quote, leaving ` if` outside any literal. -/
theorem claim_C5_counterexample :
    count_complexity_keywords "y = x;".data javaKeywords = 1 ∧
    count_complexity_keywords "y = \"\\\" if\"x;".data javaKeywords = 2 := by
  refine ⟨by decide, by decide⟩

/-- C5 amended: a keyword inside a double-quoted string literal does not
change the heuristic score, provided the literal's content and the
surrounding text avoid the characters the stripping heuristic mishandles
(no `/`, `#`, quote or backtick characters outside the literal's own
delimiters, and no `"` inside the literal): the count with literal content L
equals the count with the empty literal in its place, for every keyword
rule set. -/
theorem claim_C5_amended :
    ∀ (A L B : List Char) (keywords : List (List Char)),
      literalSafe A → literalSafe L → literalSafe B →
      count_complexity_keywords (A ++ dqChar :: (L ++ dqChar :: B)) keywords =
        count_complexity_keywords (A ++ dqChar :: dqChar :: B) keywords := by
  intro A L B keywords hA hL hB
  unfold count_complexity_keywords
  rw [strip_literal A L B hA hL hB]
  have h2 : remove_comments_and_strings (A ++ dqChar :: dqChar :: B) =
      A ++ dqChar :: dqChar :: B := by
    have h3 := strip_literal A [] B hA (by constructor <;> simp [literalSafe]) hB
    simpa using h3
  rw [h2]

theorem claim_C5_witness :
    literalSafe "x = ".data ∧ literalSafe "if while for".data ∧ literalSafe "; if (y) z;".data ∧
    count_complexity_keywords
      ("x = ".data ++ dqChar :: ("if while for".data ++ dqChar :: "; if (y) z;".data))
      javaKeywords =
    count_complexity_keywords ("x = ".data ++ dqChar :: dqChar :: "; if (y) z;".data)
      javaKeywords :=
  ⟨by decide, by decide, by decide,
   claim_C5_amended "x = ".data "if while for".data "; if (y) z;".data javaKeywords
     (by decide) (by decide) (by decide)⟩

theorem foldl_guard_sum (l : List Nat) (a : Nat) :
    l.foldl (fun acc numIfs => if numIfs = 0 then acc else acc + numIfs) a = a + l.sum := by
  induction l generalizing a with
  | nil => simp
  | cons n t ih =>
      simp only [List.foldl_cons, List.sum_cons, ih]
      by_cases h : n = 0
      · simp [h]
      · simp [h]
        omega

theorem nodeContribution_eq_spec (k : PyKind) : nodeContribution k = specNodeScore k := by
  cases k <;> simp [nodeContribution, specNodeScore, foldl_guard_sum]

mutual
theorem visit_node_eq (c : Nat) (t : PyNode) : visit_python_node c t = c + specWeight t := by
  match t with
  | .mk k ch =>
      rw [visit_python_node, specWeight, visit_forest_eq, nodeContribution_eq_spec, Nat.add_assoc]
theorem visit_forest_eq (c : Nat) (f : PyForest) : visit_forest c f = c + specWeightForest f := by
  match f with
  | .nil => rw [visit_forest, specWeightForest]; omega
  | .cons n rest =>
      rw [visit_forest, specWeightForest, visit_forest_eq, visit_node_eq]
      omega
end

theorem apScan_eq (s : List Char) : apScan s = ampScan s + pipeScan s := by
  induction s using apScan.induct <;> simp_all [apScan, ampScan, pipeScan] <;> omega

theorem keywordCount_eq_spec (cl kw : List Char) (h1 : kw ≠ "&&".data) (h2 : kw ≠ "||".data) :
    keywordCount cl kw = specKeywordCount cl kw := by
  simp [keywordCount, specKeywordCount, h1, h2]

theorem sum_keyword_counts (kws : List (List Char)) (cl : List Char) :
    (kws.map (keywordCount cl)).sum =
      (kws.map (specKeywordCount cl)).sum
      + kws.count "&&".data * pipeScan cl + kws.count "||".data * ampScan cl := by
  induction kws with
  | nil => simp
  | cons kw t ih =>
      simp only [List.map_cons, List.sum_cons, List.count_cons, ih]
      by_cases h1 : kw = "&&".data
      · subst h1
        have e1 : keywordCount cl "&&".data = ampScan cl + pipeScan cl := by
          rw [keywordCount.eq_def]; simp [apScan_eq]
        have e2 : specKeywordCount cl "&&".data = ampScan cl := by
          rw [specKeywordCount.eq_def]; simp
        rw [e1, e2]
        simp
        ring
      · by_cases h2 : kw = "||".data
        · subst h2
          have e1 : keywordCount cl "||".data = ampScan cl + pipeScan cl := by
            rw [keywordCount.eq_def]; simp [apScan_eq]
          have e2 : specKeywordCount cl "||".data = pipeScan cl := by
            rw [specKeywordCount.eq_def]; simp [show "||".data ≠ "&&".data by decide]
          rw [e1, e2]
          simp [show ("||".data == "&&".data) = false by decide,
                show ("&&".data == "||".data) = false by decide]
          ring
        · rw [keywordCount_eq_spec cl kw h1 h2]
          simp [List.count_cons, show (kw == "&&".data) = false by simp [h1],
                show (kw == "||".data) = false by simp [h2]]
          ring

/-- C1: for every Python syntax tree, the AST-path complexity equals 1 (base)
plus, over a full pre-order traversal, 1 per function or lambda definition,
1 per if/while/for (including async for), 1 per try block and per except
handler, (N - 1) per boolean operation with N operands, 1 per conditional
expression, and 1 per comprehension filter clause (`specWeight` sums exactly
these contributions); in particular a module holding one function whose body
contains one if and one while scores 4.  (An async function definition is
not counted by the source and is not among the claim's listed constructs.) -/
theorem claim_C1_ast_complexity :
    (∀ t : PyNode, analyze_python (some t) = 1 + specWeight t) ∧
    analyze_python (some (PyNode.mk .other (.cons (PyNode.mk .functionDef
      (.cons (PyNode.mk .ifStmt .nil) (.cons (PyNode.mk .whileStmt .nil) .nil))) .nil))) = 4 :=
  ⟨fun t => by rw [analyze_python, visit_node_eq], by decide⟩

/-- C3: the energy estimate equals
((5 + (avg cpu / 100) * 30 + (avg mem / 1000) * 2) * duration) / 3600 rounded
to 6 decimal digits for a non-empty sample list, and exactly 0 for an empty
one — `energySpec` is that formula transcribed from the claim. -/
theorem claim_C3_energy_formula :
    ∀ (samples : List Sample) (duration : ℚ),
      calculate_energy_consumption samples duration = energySpec samples duration := by
  intro samples duration
  cases samples <;> rfl

/-- C7: on the Python path, an input text that does not parse (the parse
oracle returns `none`) makes `calculate_complexity` return 0 instead of
propagating the failure (the model is total, so nothing is raised). -/
theorem claim_C7_parse_failure (parse : List Char → Option PyNode)
    (file_path code_content : List Char)
    (hext : splitext_ext (strLower file_path) = ".py".data)
    (hfail : parse code_content = none) :
    calculate_complexity parse file_path code_content = 0 := by
  simp [calculate_complexity, hext, hfail, analyze_python]

theorem claim_C7_witness :
    splitext_ext (strLower "prog.py".data) = ".py".data ∧
    calculate_complexity (fun _ => none) "prog.py".data "(".data = 0 :=
  ⟨by decide, claim_C7_parse_failure (fun _ => none) "prog.py".data "(".data (by decide) rfl⟩

/-- C9: `calculate_complexity` is a pure function of (file path, source
text): with the mutable `self.complexity` field threaded explicitly, the
returned value is independent of the field's prior value, hence of any
earlier calls on the same calculator instance. -/
theorem claim_C9_purity :
    ∀ (parse : List Char → Option PyNode) (file_path code_content : List Char) (a b : Nat),
      (calculate_complexity_state a parse file_path code_content).1 =
      (calculate_complexity_state b parse file_path code_content).1 := by
  intro parse file_path code_content a b
  simp only [calculate_complexity_state]
  split_ifs <;> first
    | rfl
    | (unfold analyze_python_state; cases parse code_content <;> rfl)

/-- C10: for every file path (AST-dispatched, heuristic-dispatched or
unknown extension), the empty source text scores exactly 1: the empty text
parses as an empty module (only base complexity) and every keyword rule set
finds zero occurrences in the empty string. -/
theorem claim_C10_empty_input (parse : List Char → Option PyNode) (file_path : List Char)
    (hparse : parse [] = some (PyNode.mk .other .nil)) :
    calculate_complexity parse file_path [] = 1 := by
  simp only [calculate_complexity]
  split_ifs <;> first
    | (simp [hparse, analyze_python]; decide)
    | decide

theorem claim_C10_witness :
    (fun _ => some (PyNode.mk .other .nil) : List Char → Option PyNode) [] =
      some (PyNode.mk .other .nil) ∧
    calculate_complexity (fun _ => some (PyNode.mk .other .nil)) "m.py".data [] = 1 :=
  ⟨rfl, claim_C10_empty_input (fun _ => some (PyNode.mk .other .nil)) "m.py".data rfl⟩

/-- C2 counterexample: on the Java text `a && b` the code returns 3, while
the claim's formula (1 plus per-keyword occurrences of that keyword, with
`&&` and `||` each matched as themselves) gives 2 — the source uses the one
combined pattern for both operator keywords, so the single `&&` is counted
twice. -/
theorem claim_C2_counterexample :
    analyze_java "a && b".data = 3 ∧
    specKeywordComplexity "a && b".data javaKeywords = 2 ∧
    analyze_java "a && b".data ≠ specKeywordComplexity "a && b".data javaKeywords := by
  refine ⟨by decide, by decide, by decide⟩

/-- C2 amended: the heuristic complexity equals the claim's per-keyword sum
plus one extra count of the combined `&&`/`||` occurrences for each operator
keyword present in the rule set: the `&&` entry additionally counts the
`||` occurrences and vice versa, because both share the pattern matching
either operator.  Equivalently, code = spec + (#`&&` entries) * pipeCount +
(#`||` entries) * ampCount on the stripped text. -/
theorem claim_C2_amended :
    ∀ (code_content : List Char) (keywords : List (List Char)),
      count_complexity_keywords code_content keywords =
        specKeywordComplexity code_content keywords
        + keywords.count "&&".data * pipeScan (remove_comments_and_strings code_content)
        + keywords.count "||".data * ampScan (remove_comments_and_strings code_content) := by
  intro code_content keywords
  unfold count_complexity_keywords specKeywordComplexity
  rw [Nat.max_eq_left (Nat.le_add_right 1 _), Nat.max_eq_left (Nat.le_add_right 1 _)]
  rw [sum_keyword_counts]
  ring

theorem one_le_count (code_content : List Char) (keywords : List (List Char)) :
    1 ≤ count_complexity_keywords code_content keywords :=
  Nat.le_max_right _ 1

theorem round6_mono {x y : ℚ} (h : x ≤ y) : round6 x ≤ round6 y := by
  unfold round6
  rw [div_le_div_iff_of_pos_right (by norm_num)]
  have : round (x * 1000000) ≤ round (y * 1000000) := by
    rw [round_eq, round_eq]
    exact Int.floor_le_floor (by linarith)
  exact_mod_cast this

/-- C4 counterexample: the non-empty source text `(` does not parse as
Python (the oracle returns `none`), and on the `.py` path
`calculate_complexity` then returns 0, not a value ≥ 1. -/
theorem claim_C4_counterexample :
    "(".data ≠ [] ∧ calculate_complexity (fun _ => none) "a.py".data "(".data = 0 :=
  ⟨by decide, by decide⟩

/-- C4 amended: complexity is at least 1 for every heuristic-path extension
and every text, and on the Python path whenever the text parses; inputs with
no control-flow constructs (`int x = 0;` for Java, `pass` for Python) score
exactly 1.  Only an unparseable text on the Python path escapes the bound
(see the counterexample). -/
theorem claim_C4_amended :
    (∀ (parse : List Char → Option PyNode) (file_path code_content : List Char),
       splitext_ext (strLower file_path) ≠ ".py".data →
       1 ≤ calculate_complexity parse file_path code_content) ∧
    (∀ (parse : List Char → Option PyNode) (file_path code_content : List Char) (t : PyNode),
       parse code_content = some t →
       1 ≤ calculate_complexity parse file_path code_content) ∧
    calculate_complexity (fun _ => none) "a.java".data "int x = 0;".data = 1 ∧
    calculate_complexity (fun _ => some (PyNode.mk .other (.cons (PyNode.mk .other .nil) .nil)))
      "a.py".data "pass".data = 1 := by
  refine ⟨?_, ?_, by decide, by decide⟩
  · intro parse file_path code_content h
    simp only [calculate_complexity]
    split_ifs <;> first
      | (exact absurd ‹_› h)
      | exact one_le_count _ _
  · intro parse file_path code_content t hparse
    simp only [calculate_complexity]
    split_ifs <;> first
      | (rw [hparse, analyze_python, visit_node_eq]; omega)
      | exact one_le_count _ _

/-- C8: for a fixed positive duration and a fixed number of samples, the
energy estimate is monotone non-decreasing in the average cpu_percent and
average memory_mb of the samples. -/
theorem claim_C8_energy_monotone :
    ∀ (s1 s2 : List Sample) (d : ℚ),
      0 < d → s1 ≠ [] → s1.length = s2.length →
      avgCpu s1 ≤ avgCpu s2 → avgMem s1 ≤ avgMem s2 →
      calculate_energy_consumption s1 d ≤ calculate_energy_consumption s2 d := by
  intro s1 s2 d hd h1 hlen hcpu hmem
  match s1, s2 with
  | [], _ => exact absurd rfl h1
  | _ :: _, [] => simp at hlen
  | a :: l, b :: m =>
      simp only [calculate_energy_consumption]
      apply round6_mono
      have hT : 5 + avgCpu (a :: l) / 100 * 30 + avgMem (a :: l) / 1000 * 2
          ≤ 5 + avgCpu (b :: m) / 100 * 30 + avgMem (b :: m) / 1000 * 2 := by linarith
      rw [div_le_div_iff_of_pos_right (by norm_num : (0:ℚ) < 3600)]
      exact mul_le_mul_of_nonneg_right hT hd.le

theorem claim_C8_witness :
    (0:ℚ) < 2 ∧ ([⟨0, 0⟩] : List Sample) ≠ [] ∧
    ([⟨0, 0⟩] : List Sample).length = ([⟨50, 100⟩] : List Sample).length ∧
    avgCpu [⟨0, 0⟩] ≤ avgCpu [⟨50, 100⟩] ∧ avgMem [⟨0, 0⟩] ≤ avgMem [⟨50, 100⟩] ∧
    calculate_energy_consumption [⟨0, 0⟩] 2 ≤ calculate_energy_consumption [⟨50, 100⟩] 2 :=
  ⟨by norm_num, by simp, rfl, by norm_num [avgCpu], by norm_num [avgMem],
   claim_C8_energy_monotone _ _ _ (by norm_num) (by simp) rfl
     (by norm_num [avgCpu]) (by norm_num [avgMem])⟩

theorem claim_C4_witness :
    splitext_ext (strLower "b.go".data) ≠ ".py".data ∧
    1 ≤ calculate_complexity (fun _ => none) "b.go".data "x := 1".data :=
  ⟨by decide, claim_C4_amended.1 (fun _ => none) "b.go".data "x := 1".data (by decide)⟩
